import Mathlib

/-!
Shallow embedding of the C4.5 decision-tree builder in
`hew/classifiers/c45.py` (class `C45`), together with the `Node`
structure it builds (from `hew/structures/node.py`).

Python `dict`s preserve insertion order, so the column dictionary is
modelled as an association list `List (String × List String)`.  Python
floats are modelled as real numbers.  `stdout`/`stderr`/file streams are
modelled as the lists of lines printed to them, in order.  Python
`set(...)` iteration order is unspecified; it is modelled by
`List.dedup`, and order-sensitive statements below are phrased so that
they hold for the order the model fixes.
-/

set_option maxHeartbeats 1000000

/-- The `C45` object: a column-oriented table (`self.columnSet`,
insertion-ordered dictionary) plus the bookkeeping fields set in
`C45.__init__`: `partitionKey`/`partitionValue` (the predicate that
produced this table from its parent) and `depth`/`maxDepth`. -/
structure C45 where
  columnSet : List (String × List String)
  partitionKey : Option String
  partitionValue : String
  depth : Nat
  maxDepth : Nat
deriving DecidableEq

namespace C45

/-- `C45.__init__(dictionaryOfLists)`: stores the dictionary and sets
`partitionKey = None`, `partitionValue = None`, `depth = 1`,
`maxDepth = 100`. -/
def init (d : List (String × List String)) : C45 :=
  ⟨d, none, "", 1, 100⟩

/-- The attribute names of the table, in dictionary (insertion) order. -/
def keys (t : C45) : List String :=
  t.columnSet.map Prod.fst

/-- `self.columnSet[col]`, defaulting to `[]` when the key is absent
(where Python would raise `KeyError`). -/
def col (t : C45) (c : String) : List String :=
  (t.columnSet.lookup c).getD []

/-- `C45.size`: `len(self.columnSet[list(self.columnSet.keys())[0]])` —
the length of the first column. -/
def size (t : C45) : Nat :=
  match t.columnSet with
  | [] => 0
  | p :: _ => p.2.length

/-- `C45.flen`: the length of column `c` as a float. -/
noncomputable def flen (t : C45) (c : String) : ℝ :=
  ((t.col c).length : ℝ)

/-- `C45.uniques`: `list(set(self.columnSet[col]))`.  The set's
iteration order is unspecified in Python; the model fixes `List.dedup`
order. -/
def uniques (t : C45) (c : String) : List String :=
  (t.col c).dedup

/-- `C45.frequency`: `self.columnSet[col].count(v)`. -/
def frequency (t : C45) (c v : String) : Nat :=
  (t.col c).count v

/-- `C45.isHomogeneous`: all values of column `c` equal its first value
(`True` for an empty column, where Python would raise `IndexError`). -/
def isHomogeneous (t : C45) (c : String) : Bool :=
  (t.col c).all (fun x => x == (t.col c).headD "")

/-- `C45.get_indexes`: `{i for i, x in enumerate(self.columnSet[col]) if x == v}`. -/
def get_indexes (t : C45) (c v : String) : Finset ℕ :=
  (Finset.range (t.col c).length).filter (fun i => (t.col c).getD i "" = v)

/-- `C45.get_values`: `[column[i] for i in range(len(column)) if i in indexes]`. -/
def get_values (t : C45) (c : String) (indexes : Finset ℕ) : List String :=
  ((List.range (t.col c).length).filter (fun i => i ∈ indexes)).map
    (fun i => (t.col c).getD i "")

/-- The list comprehension in `C45.buildPartition`:
`[x for i, x in enumerate(l) if i in idxs]`. -/
def filterIdx (l : List String) (idxs : Finset ℕ) : List String :=
  (l.enum.filter (fun p => p.1 ∈ idxs)).map Prod.snd

/-- `C45.info`: Shannon entropy (base 2) of column `resCol`:
`s += p * math.log(p, 2)` over the unique values, `return -s` with
`p = frequency(resCol, v) / flen(resCol)`. -/
noncomputable def info (t : C45) (resCol : String) : ℝ :=
  -(((t.uniques resCol).map (fun v =>
      ((t.frequency resCol v : ℝ) / t.flen resCol) *
        Real.logb 2 ((t.frequency resCol v : ℝ) / t.flen resCol))).sum)

/-- `C45.buildPartition`: restrict every column to the rows whose `c`
value is `v`; the child gets `depth + 1`, the parent's `maxDepth`, and
the `c = v` partition predicate.  (Python builds it via
`C45(p, False)`, i.e. without validation, then overwrites the fields.) -/
def buildPartition (t : C45) (c v : String) : C45 :=
  ⟨t.columnSet.map (fun p => (p.1, filterIdx p.2 (t.get_indexes c v))),
    some c, v, t.depth + 1, t.maxDepth⟩

/-- `C45.partitionOnFeature`: one sub-table per unique value of `c`. -/
def partitionOnFeature (t : C45) (c : String) : List C45 :=
  (t.uniques c).map (fun v => t.buildPartition c v)

/-- `C45.infox`: conditional entropy after dividing on column `c`:
`s += (subt.flen(c) / self.flen(c)) * subt.info(resCol)`. -/
noncomputable def infox (t : C45) (c resCol : String) : ℝ :=
  ((t.partitionOnFeature c).map (fun subt =>
      (subt.flen c / t.flen c) * subt.info resCol)).sum

/-- `C45.gain`: information gain of splitting on `x`. -/
noncomputable def gain (t : C45) (x resCol : String) : ℝ :=
  t.info resCol - t.infox x resCol

/-- `C45.rule`: `''` when `partitionKey` is falsy, otherwise
`'{partitionKey}={partitionValue}'`. -/
def rule (t : C45) : String :=
  match t.partitionKey with
  | none => ""
  | some k => if k = "" then "" else k ++ "=" ++ t.partitionValue

/-- `del subt.columnSet[col]` in `C45.buildTree`. -/
def eraseCol (t : C45) (c : String) : C45 :=
  ⟨t.columnSet.eraseP (fun p => p.1 == c), t.partitionKey, t.partitionValue,
    t.depth, t.maxDepth⟩

/-- `C45._validate`: `assert len(self.columnSet)`, then for every
`(k, v)` item `assert k` (non-empty string) and `assert len(v) == size`. -/
def _validate (t : C45) : Bool :=
  !t.columnSet.isEmpty &&
    t.columnSet.all (fun p => !p.1.isEmpty && p.2.length == t.size)

/-- `C45.fromTable`: fold the rows into a `defaultdict(list)`:
`for row in arrayOfDictionaries: for col in row: T[col].append(row[col])`,
then `C45(T)` (i.e. `init`).  `upsert` appends a value to the list of an
existing key, or adds a new key at the end (insertion order). -/
def upsert : List (String × List String) → String → String → List (String × List String)
  | [], k, v => [(k, [v])]
  | p :: rest, k, v =>
      if p.1 = k then (p.1, p.2 ++ [v]) :: rest else p :: upsert rest k v

/-- See `upsert`. -/
def fromTable (rows : List (List (String × String))) : C45 :=
  init (rows.foldl (fun T row => row.foldl (fun T kv => upsert T kv.1 kv.2) T) [])

/-- The `res_col`-free part of `gain_list` construction in
`C45.buildTree`: `[(k, self.gain(k, res_col)) for k in self.columnSet
if k != res_col]`. -/
noncomputable def gainList (t : C45) (resCol : String) : List (String × ℝ) :=
  (t.keys.filter (fun k => k != resCol)).map (fun k => (k, t.gain k resCol))

/-- Python's `max(gain_list, key=lambda x: x[1])`: the first element
whose key is maximal (later elements replace the current maximum only
when strictly greater). -/
noncomputable def maxByGain : List (String × ℝ) → String × ℝ
  | [] => ("", 0)
  | x :: xs => xs.foldl (fun best y => if best.2 < y.2 then y else best) x

end C45

/-- Modelled from the spec: `hew.structures.node.Node` (the file is not
part of the sources given).  Per spec §4.5 a Node owns a table and an
ordered child list; `add(child)` appends; a node with an empty child
list is a leaf. -/
inductive Node where
  | mk (data : C45) (children : List Node)

/-- The table a node wraps. -/
def Node.data : Node → C45
  | .mk d _ => d

/-- The ordered children of a node. -/
def Node.children : Node → List Node
  | .mk _ c => c

mutual

/-- Observation function for C4: the sizes of the leaf tables of a
tree, in the traversal order of `outputDecision`. -/
def leafCounts : Node → List ℕ
  | Node.mk t [] => [t.size]
  | Node.mk _ (c :: cs) => leafCountsList (c :: cs)

/-- See `leafCounts`. -/
def leafCountsList : List Node → List ℕ
  | [] => []
  | n :: ns => leafCounts n ++ leafCountsList ns

end

/-- Observation function for C4: the leading (`Count`) field of a
tab-separated line. -/
def countField (s : String) : String :=
  ⟨s.data.takeWhile (fun ch => ch != '\t')⟩

namespace C45

/-- `C45.buildTree`, with explicit recursion fuel (the model of the
Python call stack): `none` models a computation that would need deeper
recursion than the fuel allows.  Following the source: return a leaf if
`depth > maxDepth`; compute `gain_list` over the non-target attributes
and return a leaf if it is empty; otherwise split on the attribute of
maximal gain, attaching each homogeneous sub-table as a leaf and
recursing on each non-homogeneous sub-table after deleting the split
column from it. -/
noncomputable def buildTree : ℕ → C45 → String → Option Node
  | 0, _, _ => none
  | fuel + 1, t, resCol =>
    if t.maxDepth < t.depth then some (Node.mk t [])
    else
      let gl := t.gainList resCol
      if gl.isEmpty then some (Node.mk t [])
      else
        let c := (maxByGain gl).1
        match (t.partitionOnFeature c).mapM (fun subt =>
            if subt.isHomogeneous resCol then some (Node.mk subt [])
            else buildTree fuel (subt.eraseCol c) resCol) with
        | none => none
        | some children => some (Node.mk t children)

/-- `C45.buildTree` as a total function: run with enough fuel for the
strictly decreasing attribute count (shown adequate below). -/
noncomputable def buildTreeTotal (t : C45) (resCol : String) : Node :=
  (buildTree (t.columnSet.length + 1) t resCol).getD (Node.mk t [])

mutual

/-- `C45.outputDecision`: depth-first emission.  Appends the node's
`rule()` (when non-empty) to this branch's predicate list; a leaf
prints `size \t len(predicates) \t resCol=<unique target values joined
by ~> \t predicates joined by ' & '`; an inner node recurses into each
child with a copy of the predicate list.  The returned list holds the
lines printed to `fout`, in order. -/
def outputDecision : Node → String → List String → List String
  | Node.mk t children, resCol, predicates =>
    let preds := if t.rule = "" then predicates else predicates ++ [t.rule]
    match children with
    | [] =>
        [Nat.repr t.size ++ "\t" ++ Nat.repr preds.length ++ "\t" ++
          resCol ++ "=" ++ String.intercalate "~" (t.uniques resCol).dedup ++
          "\t" ++ String.intercalate " & " preds]
    | c :: cs => outputDecisionList (c :: cs) resCol preds

/-- The `for c in node.children: cls.outputDecision(c, res_col,
list(predicates), fout)` loop of `C45.outputDecision`: each child is
visited with its own copy of the predicate list. -/
def outputDecisionList : List Node → String → List String → List String
  | [], _, _ => []
  | n :: ns, resCol, preds =>
      outputDecision n resCol preds ++ outputDecisionList ns resCol preds

end

/-- `C45.makeDecisionTree(arrayOfDictionaries, res_col, fout, maxDepth)`:
build the root table with `fromTable` (whose `C45(T)` constructor runs
`_validate`; a failing assertion — modelled as `none` — aborts
everything), reject a missing target column with a message on `stderr`
and nothing on `fout`, otherwise overwrite the root's `maxDepth`, build
the tree and print the header line followed by the decision lines.
Result: `some (fout lines, stderr lines)`, or `none` for an assertion
failure. -/
noncomputable def makeDecisionTree (rows : List (List (String × String)))
    (resCol : String) (maxDepth : ℕ) : Option (List String × List String) :=
  let root := fromTable rows
  if root._validate = false then none
  else if (root.columnSet.lookup resCol).isNone then
    some ([], [resCol ++ " is not a valid column. Exiting."])
  else
    let root2 : C45 := ⟨root.columnSet, root.partitionKey, root.partitionValue,
      root.depth, maxDepth⟩
    some ("Count\tPath_Length\tResult\tPredicates" ::
      outputDecision (buildTreeTotal root2 resCol) resCol [], [])

/-- `maxDepth` defaults to `20` in the Python signature of
`makeDecisionTree`. -/
noncomputable def makeDecisionTreeDefault (rows : List (List (String × String)))
    (resCol : String) : Option (List String × List String) :=
  makeDecisionTree rows resCol 20

/-- The table-validity invariant of spec §3: at least one attribute,
distinct attribute names, size at least one, and all columns of the
table's size. -/
def Valid (t : C45) : Prop :=
  t.columnSet ≠ [] ∧ t.keys.Nodup ∧ 0 < t.size ∧
    ∀ p ∈ t.columnSet, p.2.length = t.size

instance (t : C45) : Decidable t.Valid := by
  unfold Valid
  infer_instance

end C45

/-- Scenario 1 input rows: `Weather = [Sunny, Sunny, Rainy, Rainy]`,
`Play = [Yes, Yes, No, No]`. -/
def scenarioRows : List (List (String × String)) :=
  [[("Weather", "Sunny"), ("Play", "Yes")],
   [("Weather", "Sunny"), ("Play", "Yes")],
   [("Weather", "Rainy"), ("Play", "No")],
   [("Weather", "Rainy"), ("Play", "No")]]

/-- The Scenario 1 root table as `fromTable` produces it. -/
def scenarioTable : C45 :=
  ⟨[("Weather", ["Sunny", "Sunny", "Rainy", "Rainy"]),
    ("Play", ["Yes", "Yes", "No", "No"])], none, "", 1, 100⟩

/-- The Scenario 1 root table after `makeDecisionTree` overwrites
`maxDepth` with its `maxDepth = 20` argument. -/
def scenario20 : C45 :=
  ⟨[("Weather", ["Sunny", "Sunny", "Rainy", "Rainy"]),
    ("Play", ["Yes", "Yes", "No", "No"])], none, "", 1, 20⟩

/-- The `Weather = Sunny` partition of `scenario20`. -/
def subSunny : C45 :=
  ⟨[("Weather", ["Sunny", "Sunny"]), ("Play", ["Yes", "Yes"])],
    some "Weather", "Sunny", 2, 20⟩

/-- The `Weather = Rainy` partition of `scenario20`. -/
def subRainy : C45 :=
  ⟨[("Weather", ["Rainy", "Rainy"]), ("Play", ["No", "No"])],
    some "Weather", "Rainy", 2, 20⟩

/-- List-level view of `C45.get_indexes`: the set of positions of `v`
in the list `c`.  `C45.get_indexes t c v` is definitionally
`idxsOf (t.col c) v`. -/
def idxsOf (c : List String) (v : String) : Finset ℕ :=
  (Finset.range c.length).filter (fun i => c.getD i "" = v)

/-- List-level view of `C45.info`: base-2 Shannon entropy of the value
distribution of a list.  `C45.info t c` is definitionally
`entropyL (t.col c)`. -/
noncomputable def entropyL (l : List String) : ℝ :=
  -((l.dedup.map (fun v =>
      ((l.count v : ℝ) / (l.length : ℝ)) *
        Real.logb 2 ((l.count v : ℝ) / (l.length : ℝ)))).sum)

/-- The values of `r` at the positions where `c` holds `v` (what the
`resCol` column of the `c = v` partition works out to be). -/
def selSnd (c r : List String) (v : String) : List String :=
  ((c.zip r).filter (fun p => p.1 == v)).map Prod.snd

/-!  ### Theorems about the embedded program  -/

/-- C1: For the four-row table with `Weather = [Sunny, Sunny, Rainy,
Rainy]` and `Play = [Yes, Yes, No, No]`, target column `Play` and
`maxDepth = 20`, `buildTree` splits exactly once on `Weather` (the root
node's two children are the `Weather=Sunny` and `Weather=Rainy`
partitions, both leaves) and the subsequent emission produces exactly
the two data lines `2\t1\tPlay=Yes\tWeather=Sunny` and
`2\t1\tPlay=No\tWeather=Rainy`, in some order. -/
theorem c1_scenario1_split_once_and_emit :
    C45.buildTreeTotal scenario20 "Play" =
      Node.mk scenario20 [Node.mk subSunny [], Node.mk subRainy []] ∧
    (C45.outputDecision (C45.buildTreeTotal scenario20 "Play") "Play" [] =
        ["2\t1\tPlay=Yes\tWeather=Sunny", "2\t1\tPlay=No\tWeather=Rainy"] ∨
      C45.outputDecision (C45.buildTreeTotal scenario20 "Play") "Play" [] =
        ["2\t1\tPlay=No\tWeather=Rainy", "2\t1\tPlay=Yes\tWeather=Sunny"]) := by
  constructor
  · rfl
  · left
    rfl

/-- C5: If a table's depth exceeds its `maxDepth`, `buildTree` returns
that node as a leaf with no children regardless of homogeneity; and for
the Scenario 1 data with `maxDepth = 0` the root (depth 1) is returned
as the single leaf, whose emitted rule has `Count = 4`,
`Path_Length = 0`, `Result = Play=Yes~No` (the union containing both
values, in either order) and an empty predicate list. -/
theorem c5_depth_exceeds_maxDepth_leaf :
    (∀ (fuel : ℕ) (t : C45) (resCol : String), t.maxDepth < t.depth →
      C45.buildTree (fuel + 1) t resCol = some (Node.mk t [])) ∧
    (C45.makeDecisionTree scenarioRows "Play" 0 =
        some (["Count\tPath_Length\tResult\tPredicates", "4\t0\tPlay=Yes~No\t"], []) ∨
      C45.makeDecisionTree scenarioRows "Play" 0 =
        some (["Count\tPath_Length\tResult\tPredicates", "4\t0\tPlay=No~Yes\t"], [])) := by
  constructor
  · intro fuel t resCol h
    simp only [C45.buildTree, if_pos h]
  · left
    rfl

/-- Witness for C5: the Scenario 1 table with `maxDepth = 0` has
`depth = 1 > 0`, and `buildTree` returns it as a childless leaf. -/
theorem c5_depth_exceeds_maxDepth_leaf_witness :
    C45.buildTree 1 ⟨scenarioTable.columnSet, none, "", 1, 0⟩ "Play" =
      some (Node.mk ⟨scenarioTable.columnSet, none, "", 1, 0⟩ []) :=
  c5_depth_exceeds_maxDepth_leaf.1 0 ⟨scenarioTable.columnSet, none, "", 1, 0⟩ "Play"
    (by decide)

/-- C8: If the configured target column is absent from the input's
attribute set, `makeDecisionTree` (given an input that passes table
validation, i.e. whose construction does not already abort) reports the
failure to `stderr` and aborts with nothing written to `fout` — not
even the header line. -/
theorem c8_invalid_target_aborts (rows : List (List (String × String)))
    (resCol : String) (maxDepth : ℕ)
    (hval : (C45.fromTable rows)._validate = true)
    (habsent : resCol ∉ (C45.fromTable rows).keys) :
    C45.makeDecisionTree rows resCol maxDepth =
      some ([], [resCol ++ " is not a valid column. Exiting."]) := by
  have hlookup : ((C45.fromTable rows).columnSet.lookup resCol) = none := by
    rw [List.lookup_eq_none_iff]
    intro p hp
    simp only [bne_iff_ne, ne_eq]
    intro h
    exact habsent (h ▸ List.mem_map_of_mem Prod.fst hp)
  simp only [C45.makeDecisionTree, hval, hlookup, Bool.true_eq_false, if_false,
    Option.isNone_none, if_true]

/-- Witness for C8: `Humidity` is not a column of the Scenario 1 table,
so `makeDecisionTree` writes only the diagnostic message. -/
theorem c8_invalid_target_aborts_witness :
    C45.makeDecisionTree scenarioRows "Humidity" 20 =
      some ([], ["Humidity is not a valid column. Exiting."]) :=
  c8_invalid_target_aborts scenarioRows "Humidity" 20 (by decide) (by decide)

/-- C9 counterexample: a size-zero table (one attribute whose column is
empty) passes `_validate`, so validation does not surface an error in
the size-zero case the claim lists. -/
theorem c9_size_zero_passes_validation :
    (C45.init [("a", [])])._validate = true ∧ (C45.init [("a", [])]).size = 0 := by
  decide

/-- C9 amended: table construction with validation enabled surfaces an
error exactly when the attribute set is empty, some attribute name is
the empty string, or some attribute sequence's length mismatches the
table's size; in particular the empty-attribute-set and
mismatched-lengths cases error, but a size-zero table passes. -/
theorem c9_validate_characterization (t : C45) :
    t._validate = true ↔
      t.columnSet ≠ [] ∧ ∀ p ∈ t.columnSet, p.1 ≠ "" ∧ p.2.length = t.size := by
  have hs : ∀ s : String, s.isEmpty = false ↔ s ≠ "" := by
    intro s
    rw [Bool.eq_false_iff, ne_eq]
    exact not_congr (String.isEmpty_iff s)
  unfold C45._validate
  simp only [Bool.and_eq_true, Bool.not_eq_true', List.isEmpty_eq_false,
    List.all_eq_true, beq_iff_eq, hs, ne_eq]

/-- Witness for C9 amended: the Scenario 1 table validates, and the
characterization's right-hand side holds for it. -/
theorem c9_validate_characterization_witness :
    scenarioTable._validate = true ∧
      (scenarioTable.columnSet ≠ [] ∧
        ∀ p ∈ scenarioTable.columnSet, p.1 ≠ "" ∧ p.2.length = scenarioTable.size) :=
  ⟨by decide, (c9_validate_characterization scenarioTable).mp (by decide)⟩

/-- C10: a table constructed directly through `C45.__init__` or
`C45.fromTable` has `depth = 1` and `maxDepth = 100`; the documented
default `maxDepth` of 20 takes effect only through `makeDecisionTree`
(whose default argument is 20), which overwrites the root's `maxDepth`
with its own parameter after construction — observably, with parameter
`0` the Scenario 1 build truncates at the root even though `fromTable`
had set `maxDepth = 100`. -/
theorem c10_default_depth_maxDepth :
    (∀ d, (C45.init d).depth = 1 ∧ (C45.init d).maxDepth = 100) ∧
    (∀ rows, (C45.fromTable rows).depth = 1 ∧ (C45.fromTable rows).maxDepth = 100) ∧
    (∀ rows resCol, C45.makeDecisionTreeDefault rows resCol =
      C45.makeDecisionTree rows resCol 20) ∧
    ((C45.fromTable scenarioRows).maxDepth = 100 ∧
      C45.makeDecisionTree scenarioRows "Play" 0 =
        some (["Count\tPath_Length\tResult\tPredicates", "4\t0\tPlay=Yes~No\t"], [])) := by
  refine ⟨fun d => ⟨rfl, rfl⟩, fun rows => ⟨rfl, rfl⟩, fun rows resCol => rfl, ⟨by decide, rfl⟩⟩

/-!  ### Partitioning lemmas (for C2 and the size bookkeeping)  -/

lemma mem_idxsOf {c : List String} {v : String} {i : ℕ} :
    i ∈ idxsOf c v ↔ i < c.length ∧ c.getD i "" = v := by
  simp [idxsOf]

lemma zero_mem_idxsOf_cons {a v : String} {c : List String} :
    0 ∈ idxsOf (a :: c) v ↔ a = v := by
  simp [mem_idxsOf]

lemma succ_mem_idxsOf_cons {a v : String} {c : List String} {i : ℕ} :
    (i + 1) ∈ idxsOf (a :: c) v ↔ i ∈ idxsOf c v := by
  simp [mem_idxsOf, Nat.succ_lt_succ_iff]

lemma get_indexes_eq_idxsOf (t : C45) (c v : String) :
    t.get_indexes c v = idxsOf (t.col c) v := rfl

lemma enumFrom_filter_map_snd {α : Type _} (l : List α) :
    ∀ (k : ℕ) (P : ℕ → Bool),
      ((l.enumFrom k).filter (fun p => P p.1)).map Prod.snd =
        ((l.enum.filter (fun p => P (p.1 + k))).map Prod.snd) := by
  induction l with
  | nil => intro k P; simp
  | cons b l ih =>
    intro k P
    have htail :
        ((l.enumFrom (k + 1)).filter (fun p => P p.1)).map Prod.snd =
          ((l.enumFrom 1).filter (fun p => P (p.1 + k))).map Prod.snd := by
      rw [ih (k + 1) P, ih 1 (fun i => P (i + k))]
      have h1 : (fun (p : ℕ × α) => P (p.1 + 1 + k)) =
          (fun (p : ℕ × α) => P (p.1 + (k + 1))) := by
        funext p
        rw [Nat.add_assoc, Nat.add_comm 1 k]
      rw [h1]
    rw [List.enumFrom_cons, List.enum_cons, List.filter_cons, List.filter_cons]
    cases hPk : P k with
    | true =>
      rw [Nat.zero_add]
      simp only [hPk, if_true, List.map_cons, htail]
    | false =>
      rw [Nat.zero_add]
      simp only [hPk, Bool.false_eq_true, if_false, htail]

lemma filterIdx_idxsOf : ∀ (c l : List String) (v : String),
    C45.filterIdx l (idxsOf c v) = ((c.zip l).filter (fun p => p.1 == v)).map Prod.snd := by
  intro c
  induction c with
  | nil =>
    intro l v
    have hf : ∀ p : ℕ × String, (decide (p.1 ∈ idxsOf [] v)) = false := by
      intro p
      simp [mem_idxsOf]
    unfold C45.filterIdx
    rw [List.filter_congr (fun p _ => hf p), List.filter_false]
    simp
  | cons a c ih =>
    intro l v
    cases l with
    | nil =>
      unfold C45.filterIdx
      simp
    | cons b l =>
      have htail : ((l.enumFrom 1).filter (fun p => decide (p.1 ∈ idxsOf (a :: c) v))).map
          Prod.snd = C45.filterIdx l (idxsOf c v) := by
        rw [enumFrom_filter_map_snd l 1 (fun i => decide (i ∈ idxsOf (a :: c) v))]
        unfold C45.filterIdx
        congr 1
        apply List.filter_congr
        intro p _
        exact decide_eq_decide.mpr succ_mem_idxsOf_cons
      show (((0, b) :: l.enumFrom 1).filter
          (fun p => decide (p.1 ∈ idxsOf (a :: c) v))).map Prod.snd = _
      rw [List.zip_cons_cons, List.filter_cons, List.filter_cons]
      cases hav : (a == v) with
      | true =>
        have h0 : (decide (0 ∈ idxsOf (a :: c) v)) = true := by
          simp [zero_mem_idxsOf_cons]
          exact (beq_iff_eq).mp hav
        simp only [h0, hav, if_true, List.map_cons, htail, ih l v]
      | false =>
        have h0 : (decide (0 ∈ idxsOf (a :: c) v)) = false := by
          simp only [decide_eq_false_iff_not, zero_mem_idxsOf_cons]
          exact fun h => by simp [h] at hav
        simp only [h0, hav, Bool.false_eq_true, if_false, htail, ih l v]

lemma length_filterIdx_idxsOf {c l : List String} (v : String) (h : c.length = l.length) :
    (C45.filterIdx l (idxsOf c v)).length = c.count v := by
  rw [filterIdx_idxsOf, List.length_map, ← List.countP_eq_length_filter,
    List.count_eq_countP]
  have hc : c = (c.zip l).map Prod.fst := (List.map_fst_zip c l (le_of_eq h)).symm
  conv_rhs => rw [hc]
  rw [List.countP_map]
  rfl

lemma lookup_map_value (f : List String → List String) :
    ∀ (l : List (String × List String)) (k : String),
      List.lookup k (l.map (fun p => (p.1, f p.2))) = (List.lookup k l).map f := by
  intro l k
  induction l with
  | nil => rfl
  | cons p rest ih =>
    obtain ⟨k', v'⟩ := p
    rw [List.map_cons]
    show List.lookup k ((k', f v') :: _) = _
    rw [List.lookup_cons, List.lookup_cons]
    cases hk : (k == k') with
    | true => simp
    | false => simpa using ih

lemma col_buildPartition (t : C45) (c v x : String) :
    (t.buildPartition c v).col x = C45.filterIdx (t.col x) (t.get_indexes c v) := by
  show ((t.columnSet.map (fun p => (p.1, C45.filterIdx p.2 (t.get_indexes c v)))).lookup
    x).getD [] = _
  rw [lookup_map_value (fun l => C45.filterIdx l (t.get_indexes c v)) t.columnSet x]
  unfold C45.col
  cases List.lookup x t.columnSet with
  | none => rfl
  | some l => rfl

lemma mem_of_lookup_eq_some {l : List (String × List String)} {k : String}
    {b : List String} (h : List.lookup k l = some b) : (k, b) ∈ l := by
  obtain ⟨l1, l2, rfl, -⟩ := List.lookup_eq_some_iff.mp h
  simp

lemma length_col_eq_size (t : C45)
    (hlen : ∀ p ∈ t.columnSet, p.2.length = t.size) {c : String}
    (hc : c ∈ t.keys) :
    (t.col c).length = t.size := by
  unfold C45.col
  cases h : List.lookup c t.columnSet with
  | none =>
    rw [List.lookup_eq_none_iff] at h
    obtain ⟨p, hp, hpc⟩ := List.mem_map.mp hc
    have := h p hp
    simp [← hpc] at this
  | some b =>
    simpa using hlen _ (mem_of_lookup_eq_some h)

lemma size_buildPartition (t : C45)
    (hlen : ∀ p ∈ t.columnSet, p.2.length = t.size) {c : String}
    (hc : c ∈ t.keys) (v : String) :
    (t.buildPartition c v).size = (t.col c).count v := by
  rcases hcs : t.columnSet with - | ⟨p0, rest⟩
  · obtain ⟨p, hp, -⟩ := List.mem_map.mp hc
    rw [hcs] at hp
    simp at hp
  · have hsz : t.size = p0.2.length := by
      unfold C45.size
      rw [hcs]
    have hclen : (t.col c).length = p0.2.length :=
      (length_col_eq_size t hlen hc).trans hsz
    show (C45.size ⟨(t.columnSet.map
      (fun p => (p.1, C45.filterIdx p.2 (t.get_indexes c v)))), some c, v,
      t.depth + 1, t.maxDepth⟩) = _
    rw [hcs, List.map_cons]
    show (C45.filterIdx p0.2 (t.get_indexes c v)).length = _
    rw [get_indexes_eq_idxsOf]
    exact length_filterIdx_idxsOf v hclen

lemma partition_sizes_sum (t : C45)
    (hlen : ∀ p ∈ t.columnSet, p.2.length = t.size) {c : String}
    (hc : c ∈ t.keys) :
    ((t.partitionOnFeature c).map C45.size).sum = t.size := by
  unfold C45.partitionOnFeature
  rw [List.map_map]
  have hmap : (t.uniques c).map (C45.size ∘ fun v => t.buildPartition c v) =
      (t.uniques c).map (fun v => (t.col c).count v) :=
    List.map_congr_left (fun v _ => size_buildPartition t hlen hc v)
  rw [hmap]
  unfold C45.uniques
  rw [List.sum_map_count_dedup_eq_length]
  exact length_col_eq_size t hlen hc

/-- C2: for every valid table and every column `col` of the table, the
sub-tables returned by `partitionOnFeature(col)` have sizes that sum
exactly to the parent table's size, the index sets `get_indexes(col, v)`
for the distinct values `v` of `col` are pairwise disjoint, and their
union is the full set of row indices of the parent. -/
theorem c2_partition_sizes_and_indexes (t : C45) (hv : t.Valid) (c : String)
    (hc : c ∈ t.keys) :
    ((t.partitionOnFeature c).map C45.size).sum = t.size ∧
    (∀ v ∈ t.uniques c, ∀ w ∈ t.uniques c, v ≠ w →
      Disjoint (t.get_indexes c v) (t.get_indexes c w)) ∧
    (t.uniques c).toFinset.biUnion (fun v => t.get_indexes c v) =
      Finset.range t.size := by
  refine ⟨partition_sizes_sum t hv.2.2.2 hc, ?_, ?_⟩
  · intro v hv' w hw' hvw
    rw [Finset.disjoint_left]
    intro i hiv hiw
    rw [get_indexes_eq_idxsOf, mem_idxsOf] at hiv hiw
    exact hvw (hiv.2.symm.trans hiw.2)
  · ext i
    simp only [Finset.mem_biUnion, List.mem_toFinset, Finset.mem_range,
      get_indexes_eq_idxsOf, mem_idxsOf, C45.uniques, List.mem_dedup]
    constructor
    · rintro ⟨v, -, hlen, -⟩
      exact lt_of_lt_of_le hlen (le_of_eq (length_col_eq_size t hv.2.2.2 hc))
    · intro hi
      have hlen : i < (t.col c).length := by
        rw [length_col_eq_size t hv.2.2.2 hc]
        exact hi
      refine ⟨(t.col c).getD i "", ?_, hlen, rfl⟩
      rw [List.getD_eq_getElem _ _ hlen]
      exact List.getElem_mem hlen

/-- Witness for C2: the Scenario 1 table and its `Weather` column. -/
theorem c2_partition_sizes_and_indexes_witness :
    ((scenarioTable.partitionOnFeature "Weather").map C45.size).sum =
      scenarioTable.size ∧
    (∀ v ∈ scenarioTable.uniques "Weather", ∀ w ∈ scenarioTable.uniques "Weather",
      v ≠ w →
      Disjoint (scenarioTable.get_indexes "Weather" v)
        (scenarioTable.get_indexes "Weather" w)) ∧
    (scenarioTable.uniques "Weather").toFinset.biUnion
        (fun v => scenarioTable.get_indexes "Weather" v) =
      Finset.range scenarioTable.size :=
  c2_partition_sizes_and_indexes scenarioTable (by decide) "Weather" (by decide)

/-!  ### Termination of `buildTree` (C7)  -/

lemma foldl_max_mem (xs : List (String × ℝ)) :
    ∀ x : String × ℝ,
      xs.foldl (fun best y => if best.2 < y.2 then y else best) x ∈ x :: xs := by
  induction xs with
  | nil => intro x; simp
  | cons y xs ih =>
    intro x
    rw [List.foldl_cons]
    have h := ih (if x.2 < y.2 then y else x)
    rcases List.mem_cons.mp h with h' | h'
    · rw [h']
      split
      · simp
      · simp
    · simp [List.mem_cons_of_mem, h']

lemma maxByGain_mem {l : List (String × ℝ)} (h : l ≠ []) : C45.maxByGain l ∈ l := by
  cases l with
  | nil => exact absurd rfl h
  | cons x xs => exact foldl_max_mem xs x

lemma mem_keys_of_mem_gainList {t : C45} {res : String} {x : String × ℝ}
    (h : x ∈ t.gainList res) : x.1 ∈ t.keys ∧ x.1 ≠ res := by
  unfold C45.gainList at h
  obtain ⟨k, hk, rfl⟩ := List.mem_map.mp h
  obtain ⟨hmem, hne⟩ := List.mem_filter.mp hk
  exact ⟨hmem, by simpa using hne⟩

lemma keys_buildPartition (t : C45) (c v : String) :
    (t.buildPartition c v).keys = t.keys := by
  unfold C45.keys C45.buildPartition
  rw [List.map_map]
  rfl

lemma columnSet_length_buildPartition (t : C45) (c v : String) :
    (t.buildPartition c v).columnSet.length = t.columnSet.length := by
  unfold C45.buildPartition
  exact List.length_map _ _

lemma columnSet_length_eraseCol_lt {t : C45} {c : String} (hc : c ∈ t.keys) :
    (t.eraseCol c).columnSet.length = t.columnSet.length - 1 := by
  obtain ⟨p, hp, hpc⟩ := List.mem_map.mp hc
  unfold C45.eraseCol
  exact List.length_eraseP_of_mem hp (by simpa using hpc)

lemma mapM_isSome_of_forall {α β : Type _} (f : α → Option β) :
    ∀ (l : List α), (∀ x ∈ l, (f x).isSome) → (l.mapM f).isSome := by
  intro l
  induction l with
  | nil => intro _; rfl
  | cons a as ih =>
    intro h
    rw [List.mapM_cons]
    cases hfa : f a with
    | none =>
      have hsome := h a (List.mem_cons_self a as)
      rw [hfa] at hsome
      simp at hsome
    | some b =>
      have has := ih (fun x hx => h x (List.mem_cons_of_mem a hx))
      cases hms : as.mapM f with
      | none => rw [hms] at has; simp at has
      | some bs => simp [hfa, hms]

lemma buildTree_isSome : ∀ (fuel : ℕ) (t : C45) (res : String),
    t.columnSet.length < fuel → (C45.buildTree fuel t res).isSome := by
  intro fuel
  induction fuel with
  | zero => intro t res h; omega
  | succ n ih =>
    intro t res h
    rw [C45.buildTree]
    by_cases h1 : t.maxDepth < t.depth
    · simp [h1]
    · simp only [h1, if_false]
      by_cases h2 : (t.gainList res).isEmpty
      · simp [h2]
      · simp only [h2, Bool.false_eq_true, if_false]
        have hglne : t.gainList res ≠ [] := by
          simpa [List.isEmpty_iff] using h2
        have hckeys : (C45.maxByGain (t.gainList res)).1 ∈ t.keys :=
          (mem_keys_of_mem_gainList (maxByGain_mem hglne)).1
        have hmm : ((t.partitionOnFeature (C45.maxByGain (t.gainList res)).1).mapM
            (fun subt : C45 => if subt.isHomogeneous res then some (Node.mk subt [])
              else C45.buildTree n (subt.eraseCol (C45.maxByGain (t.gainList res)).1)
                res)).isSome := by
          apply mapM_isSome_of_forall
          intro subt hsub
          by_cases hh : subt.isHomogeneous res
          · simp [hh]
          · simp only [hh, Bool.false_eq_true, if_false]
            obtain ⟨v, -, rfl⟩ := List.mem_map.mp hsub
            apply ih
            rw [columnSet_length_eraseCol_lt
              (by rw [keys_buildPartition]; exact hckeys),
              columnSet_length_buildPartition]
            have hpos : 0 < t.columnSet.length := by
              rcases List.mem_map.mp hckeys with ⟨p, hp, -⟩
              exact List.length_pos_of_mem hp
            omega
        obtain ⟨children, hch⟩ := Option.isSome_iff_exists.mp hmm
        rw [hch]
        rfl

/-- C7: `buildTree` terminates for every table and target column: the
number of attributes strictly decreases across recursive calls (the
just-split attribute is deleted from every sub-table that recurses), so
running the fuelled model with fuel `number of attributes + 1` never
exhausts the fuel, and `buildTreeTotal` is its result. -/
theorem c7_buildTree_terminates (t : C45) (resCol : String) :
    (C45.buildTree (t.columnSet.length + 1) t resCol).isSome ∧
    C45.buildTree (t.columnSet.length + 1) t resCol =
      some (C45.buildTreeTotal t resCol) := by
  have h := buildTree_isSome (t.columnSet.length + 1) t resCol (by omega)
  refine ⟨h, ?_⟩
  obtain ⟨tree, htree⟩ := Option.isSome_iff_exists.mp h
  rw [C45.buildTreeTotal, htree]
  rfl

/-!  ### Emitted counts (C4)  -/

lemma toDigitsCore_no_tab :
    ∀ (fuel n : ℕ) (acc : List Char), (∀ ch ∈ acc, ch ≠ '\t') →
      ∀ ch ∈ Nat.toDigitsCore 10 fuel n acc, ch ≠ '\t' := by
  intro fuel
  induction fuel with
  | zero =>
    intro n acc hacc
    simpa [Nat.toDigitsCore] using hacc
  | succ f ih =>
    intro n acc hacc
    have hdig : ∀ m, m < 10 → Nat.digitChar m ≠ '\t' := by decide
    have hd : Nat.digitChar (n % 10) ≠ '\t' :=
      hdig (n % 10) (Nat.mod_lt _ (by norm_num))
    have hacc' : ∀ ch ∈ Nat.digitChar (n % 10) :: acc, ch ≠ '\t' := by
      intro ch hch
      rcases List.mem_cons.mp hch with rfl | hch
      · exact hd
      · exact hacc ch hch
    simp only [Nat.toDigitsCore]
    split
    · exact hacc'
    · exact ih (n / 10) _ hacc'

lemma repr_no_tab (k : ℕ) : ∀ ch ∈ (Nat.repr k).data, ch ≠ '\t' := by
  intro ch hch
  have hrepr : (Nat.repr k).data = Nat.toDigitsCore 10 (k + 1) k [] := rfl
  rw [hrepr] at hch
  exact toDigitsCore_no_tab (k + 1) k [] (by simp) ch hch

lemma takeWhile_append_of_forall {α : Type _} (p : α → Bool) (xs : List α) (c : α)
    (ys : List α) (hxs : ∀ x ∈ xs, p x = true) (hc : p c = false) :
    (xs ++ c :: ys).takeWhile p = xs := by
  induction xs with
  | nil =>
    rw [List.nil_append, List.takeWhile_cons_of_neg]
    simp [hc]
  | cons a xs ih =>
    rw [List.cons_append, List.takeWhile_cons_of_pos (hxs a (by simp))]
    rw [ih (fun x hx => hxs x (by simp [hx]))]

lemma countField_of_data (s : String) (k : ℕ) (ys : List Char)
    (h : s.data = (Nat.repr k).data ++ '\t' :: ys) : countField s = Nat.repr k := by
  unfold countField
  rw [h, takeWhile_append_of_forall _ _ _ _
    (fun x hx => by simpa using repr_no_tab k x hx) (by decide)]

lemma tab_data : "\t".data = ['\t'] := rfl

mutual

theorem emit_countField : ∀ (n : Node) (res : String) (preds : List String),
    (C45.outputDecision n res preds).map countField = (leafCounts n).map Nat.repr
  | Node.mk t [], res, preds => by
    simp only [C45.outputDecision, leafCounts, List.map_cons, List.map_nil]
    congr 1
    exact countField_of_data _ t.size
      ((if t.rule = "" then preds else preds ++ [t.rule]).length.repr.data ++
        '\t' :: (res.data ++ '=' :: (("~".intercalate (t.uniques res).dedup).data ++
          '\t' :: (" & ".intercalate
            (if t.rule = "" then preds else preds ++ [t.rule])).data)))
      (by simp [tab_data])
  | Node.mk t (c :: cs), res, preds => by
    simp only [C45.outputDecision, leafCounts]
    exact emitList_countField (c :: cs) res _

theorem emitList_countField : ∀ (ns : List Node) (res : String) (preds : List String),
    (C45.outputDecisionList ns res preds).map countField =
      (leafCountsList ns).map Nat.repr
  | [], _, _ => by simp [C45.outputDecisionList, leafCountsList]
  | n :: ns, res, preds => by
    simp only [C45.outputDecisionList, leafCountsList, List.map_append]
    rw [emit_countField n res preds, emitList_countField ns res preds]

end

lemma eqlen_buildPartition (t : C45)
    (hlen : ∀ p ∈ t.columnSet, p.2.length = t.size) {c : String}
    (hc : c ∈ t.keys) (v : String) :
    ∀ p ∈ (t.buildPartition c v).columnSet,
      p.2.length = (t.buildPartition c v).size := by
  intro p hp
  obtain ⟨q, hq, rfl⟩ := List.mem_map.mp hp
  show (C45.filterIdx q.2 (t.get_indexes c v)).length = _
  rw [get_indexes_eq_idxsOf,
    length_filterIdx_idxsOf v (((length_col_eq_size t hlen hc).trans (hlen q hq).symm)),
    size_buildPartition t hlen hc v]

lemma keys_eraseCol_mem {t : C45} {c res : String} (hres : res ∈ t.keys)
    (hne : res ≠ c) : res ∈ (t.eraseCol c).keys := by
  obtain ⟨p, hp, hpres⟩ := List.mem_map.mp hres
  have hmem : p ∈ (t.eraseCol c).columnSet := by
    show p ∈ t.columnSet.eraseP (fun p => p.1 == c)
    rw [List.mem_eraseP_of_neg (by simp [hpres, hne])]
    exact hp
  exact hpres ▸ List.mem_map_of_mem Prod.fst hmem

lemma size_eraseCol {t : C45} {c : String}
    (hlen : ∀ p ∈ t.columnSet, p.2.length = t.size)
    (hne : (t.eraseCol c).columnSet ≠ []) :
    (t.eraseCol c).size = t.size := by
  rcases hcs : (t.eraseCol c).columnSet with - | ⟨p0, rest⟩
  · exact absurd hcs hne
  · have hp0 : p0 ∈ t.columnSet := by
      apply List.mem_of_mem_eraseP (p := fun p => p.1 == c)
      show p0 ∈ (t.eraseCol c).columnSet
      rw [hcs]
      simp
    have : (t.eraseCol c).size = p0.2.length := by
      unfold C45.size
      rw [hcs]
    rw [this]
    exact hlen p0 hp0

lemma eqlen_eraseCol {t : C45} {c : String}
    (hlen : ∀ p ∈ t.columnSet, p.2.length = t.size)
    (hne : (t.eraseCol c).columnSet ≠ []) :
    ∀ p ∈ (t.eraseCol c).columnSet, p.2.length = (t.eraseCol c).size := by
  intro p hp
  rw [size_eraseCol hlen hne]
  exact hlen p (List.mem_of_mem_eraseP hp)

lemma leafCountsList_sum_of_mapM {f : C45 → Option Node} :
    ∀ {l : List C45} {out : List Node}, l.mapM f = some out →
      (∀ x ∈ l, ∀ y, f x = some y → (leafCounts y).sum = x.size) →
      (leafCountsList out).sum = (l.map C45.size).sum := by
  intro l
  induction l with
  | nil =>
    intro out h _
    simp only [List.mapM_nil] at h
    cases h
    simp [leafCountsList]
  | cons a as ih =>
    intro out h hpt
    rw [List.mapM_cons] at h
    cases hfa : f a with
    | none => rw [hfa] at h; simp at h
    | some b =>
      cases hms : as.mapM f with
      | none => rw [hfa, hms] at h; simp at h
      | some bs =>
        rw [hfa, hms] at h
        simp only [Option.bind_eq_bind, Option.some_bind, Option.pure_def,
          Option.some_inj] at h
        cases h
        show (leafCounts b ++ leafCountsList bs).sum = _
        rw [List.sum_append, List.map_cons, List.sum_cons,
          hpt a (by simp) b hfa,
          ih hms (fun x hx => hpt x (List.mem_cons_of_mem a hx))]

lemma leafCounts_sum_buildTree :
    ∀ (fuel : ℕ) (t : C45) (res : String) (tree : Node),
      C45.buildTree fuel t res = some tree →
      res ∈ t.keys →
      (∀ p ∈ t.columnSet, p.2.length = t.size) →
      (leafCounts tree).sum = t.size := by
  intro fuel
  induction fuel with
  | zero => intro t res tree h _ _; simp [C45.buildTree] at h
  | succ n ih =>
    intro t res tree h hres hlen
    simp only [C45.buildTree] at h
    split at h
    · cases h
      simp [leafCounts]
    · split at h
      · cases h
        simp [leafCounts]
      · rename_i hgl
        split at h
        · exact absurd h (by simp)
        · rename_i children heq
          cases h
          have hglne : t.gainList res ≠ [] := by
            simpa [List.isEmpty_iff] using hgl
          obtain ⟨hckeys, hcne⟩ := mem_keys_of_mem_gainList (maxByGain_mem hglne)
          have hpt : ∀ subt ∈ t.partitionOnFeature (C45.maxByGain (t.gainList res)).1,
              ∀ y, (if subt.isHomogeneous res = true then some (Node.mk subt [])
                else C45.buildTree n
                  (subt.eraseCol (C45.maxByGain (t.gainList res)).1) res) = some y →
              (leafCounts y).sum = subt.size := by
            intro subt hsub y hy
            obtain ⟨v, -, rfl⟩ := List.mem_map.mp hsub
            set c := (C45.maxByGain (t.gainList res)).1
            by_cases hh : (t.buildPartition c v).isHomogeneous res = true
            · rw [if_pos hh, Option.some_inj] at hy
              cases hy
              simp [leafCounts]
            · rw [if_neg hh] at hy
              have hreskeys : res ∈ (t.buildPartition c v).keys := by
                rw [keys_buildPartition]
                exact hres
              have hresk' : res ∈ ((t.buildPartition c v).eraseCol c).keys :=
                keys_eraseCol_mem hreskeys (fun hrc => hcne hrc.symm)
              have hne' : ((t.buildPartition c v).eraseCol c).columnSet ≠ [] := by
                intro hnil
                obtain ⟨p, hp, -⟩ := List.mem_map.mp hresk'
                rw [hnil] at hp
                simp at hp
              have hlen' := eqlen_buildPartition t hlen hckeys v
              have := ih ((t.buildPartition c v).eraseCol c) res y hy hresk'
                (eqlen_eraseCol hlen' hne')
              rw [this, size_eraseCol hlen' hne']
          cases hpart : t.partitionOnFeature (C45.maxByGain (t.gainList res)).1 with
          | nil =>
            rw [hpart, List.mapM_nil] at heq
            cases heq
            simp [leafCounts]
          | cons s ss =>
            have ho090 : children ≠ [] := by
              intro hcnil
              rw [hpart, List.mapM_cons, hcnil] at heq
              cases hfs : (if (s.isHomogeneous res) = true then some (Node.mk s [])
                  else C45.buildTree n
                    (s.eraseCol (C45.maxByGain (t.gainList res)).1) res) with
              | none => rw [hfs] at heq; simp at heq
              | some b =>
                rw [hfs] at heq
                cases hms : ss.mapM (fun subt =>
                    if subt.isHomogeneous res = true then some (Node.mk subt [])
                    else C45.buildTree n
                      (subt.eraseCol (C45.maxByGain (t.gainList res)).1) res) with
                | none => rw [hms] at heq; simp at heq
                | some bs => rw [hms] at heq; simp at heq
            rcases children with - | ⟨c0, cs0⟩
            · exact absurd rfl ho090
            · show (leafCountsList (c0 :: cs0)).sum = t.size
              rw [leafCountsList_sum_of_mapM heq hpt]
              exact partition_sizes_sum t hlen hckeys

/-- C4: after `buildTree` followed by `outputDecision` on a valid root
table (whose target column is one of its attributes), the `Count`
fields of the emitted data lines are exactly the decimal renderings of
the tree's leaf sizes, and those leaf sizes sum to the size of the root
table. -/
theorem c4_emitted_counts_sum (t : C45) (resCol : String) (hv : t.Valid)
    (hres : resCol ∈ t.keys) :
    (C45.outputDecision (C45.buildTreeTotal t resCol) resCol []).map countField =
      (leafCounts (C45.buildTreeTotal t resCol)).map Nat.repr ∧
    (leafCounts (C45.buildTreeTotal t resCol)).sum = t.size := by
  constructor
  · exact emit_countField _ resCol []
  · obtain ⟨tree, htree⟩ := Option.isSome_iff_exists.mp
      (buildTree_isSome (t.columnSet.length + 1) t resCol (by omega))
    have hT : C45.buildTreeTotal t resCol = tree := by
      rw [C45.buildTreeTotal, htree]
      rfl
    rw [hT]
    exact leafCounts_sum_buildTree _ t resCol tree htree hres hv.2.2.2

/-- Witness for C4: the Scenario 1 table with target `Play`. -/
theorem c4_emitted_counts_sum_witness :
    (C45.outputDecision (C45.buildTreeTotal scenarioTable "Play") "Play" []).map
        countField =
      (leafCounts (C45.buildTreeTotal scenarioTable "Play")).map Nat.repr ∧
    (leafCounts (C45.buildTreeTotal scenarioTable "Play")).sum = scenarioTable.size :=
  c4_emitted_counts_sum scenarioTable "Play" (by decide) (by decide)

/-!  ### Entropy (C6)  -/

lemma info_eq_entropyL (t : C45) (c : String) : t.info c = entropyL (t.col c) := rfl

lemma toFinset_dedup_list {α : Type _} [DecidableEq α] (l : List α) :
    l.dedup.toFinset = l.toFinset := by
  ext a
  simp [List.mem_toFinset, List.mem_dedup]

lemma headD_mem {l : List String} (h : l ≠ []) : l.headD "" ∈ l := by
  cases l with
  | nil => exact absurd rfl h
  | cons a l => simp

lemma entropyL_eq_zero_iff {l : List String} (hne : l ≠ []) :
    entropyL l = 0 ↔ (l.all (fun x => x == l.headD "")) = true := by
  have hlenpos : 0 < l.length := List.length_pos.mpr hne
  have hlenR : (0:ℝ) < (l.length : ℝ) := by exact_mod_cast hlenpos
  constructor
  · intro h0
    by_contra hall
    rw [List.all_eq_true] at hall
    push_neg at hall
    obtain ⟨y, hy, hyh⟩ := hall
    have hyh' : y ≠ l.headD "" := by simpa using hyh
    have hh : l.headD "" ∈ l := headD_mem hne
    have hcl : l.count (l.headD "") < l.length := by
      rcases Nat.lt_or_ge (l.count (l.headD "")) l.length with h | h
      · exact h
      · exfalso
        have heq := Nat.le_antisymm (List.count_le_length _ _) h
        rw [List.count_eq_length] at heq
        exact hyh' (heq y hy).symm
    have hterm : ((l.count (l.headD "") : ℝ) / l.length) *
        Real.logb 2 ((l.count (l.headD "") : ℝ) / l.length) < 0 := by
      have hp0 : (0:ℝ) < (l.count (l.headD "") : ℝ) / l.length :=
        div_pos (by exact_mod_cast List.count_pos_iff.mpr hh) hlenR
      have hp1 : ((l.count (l.headD "") : ℝ) / l.length) < 1 := by
        rw [div_lt_one hlenR]
        exact_mod_cast hcl
      exact mul_neg_of_pos_of_neg hp0 (Real.logb_neg one_lt_two hp0 hp1)
    have hconv : (l.dedup.map (fun v =>
        ((l.count v : ℝ) / (l.length : ℝ)) *
          Real.logb 2 ((l.count v : ℝ) / (l.length : ℝ)))).sum =
        l.toFinset.sum (fun v =>
          ((l.count v : ℝ) / (l.length : ℝ)) *
            Real.logb 2 ((l.count v : ℝ) / (l.length : ℝ))) := by
      rw [← toFinset_dedup_list l, List.sum_toFinset _ (List.nodup_dedup l)]
    have hsum : l.toFinset.sum (fun v =>
        ((l.count v : ℝ) / (l.length : ℝ)) *
          Real.logb 2 ((l.count v : ℝ) / (l.length : ℝ))) < 0 := by
      have hz : l.toFinset.sum (fun _ => (0:ℝ)) = 0 := Finset.sum_const_zero
      rw [← hz]
      apply Finset.sum_lt_sum
      · intro v hv
        have hvl : v ∈ l := List.mem_toFinset.mp hv
        have hp0 : (0:ℝ) < (l.count v : ℝ) / l.length :=
          div_pos (by exact_mod_cast List.count_pos_iff.mpr hvl) hlenR
        have hp1 : ((l.count v : ℝ) / l.length) ≤ 1 := by
          rw [div_le_one hlenR]
          exact_mod_cast List.count_le_length v l
        exact mul_nonpos_of_nonneg_of_nonpos (le_of_lt hp0)
          (Real.logb_nonpos one_lt_two (le_of_lt hp0) hp1)
      · exact ⟨l.headD "", List.mem_toFinset.mpr hh, hterm⟩
    unfold entropyL at h0
    rw [neg_eq_zero, hconv] at h0
    exact absurd h0 (ne_of_lt hsum)
  · intro hall
    rw [List.all_eq_true] at hall
    unfold entropyL
    rw [neg_eq_zero]
    apply List.sum_eq_zero
    intro x hx
    obtain ⟨v, hvdedup, rfl⟩ := List.mem_map.mp hx
    have hvl : v ∈ l := List.mem_dedup.mp hvdedup
    have hveq : v = l.headD "" := by simpa using hall v hvl
    have hcount : l.count v = l.length := by
      rw [List.count_eq_length]
      intro b hb
      have hbeq : b = l.headD "" := by simpa using hall b hb
      rw [hveq, hbeq]
    rw [hcount, div_self (ne_of_gt hlenR)]
    simp

/-- C6: for every valid table (size at least one) and every column
`col` of the table, `info(col)` is zero if and only if
`isHomogeneous(col)` is true. -/
theorem c6_info_zero_iff_homogeneous (t : C45) (c : String) (hv : t.Valid)
    (hc : c ∈ t.keys) :
    t.info c = 0 ↔ t.isHomogeneous c = true := by
  have hne : t.col c ≠ [] := by
    intro h
    have hlen := length_col_eq_size t hv.2.2.2 hc
    rw [h] at hlen
    simp only [List.length_nil] at hlen
    have := hv.2.2.1
    omega
  rw [info_eq_entropyL]
  exact entropyL_eq_zero_iff hne

/-- Witness for C6: the Scenario 1 table and its `Play` column. -/
theorem c6_info_zero_iff_homogeneous_witness :
    scenarioTable.info "Play" = 0 ↔ scenarioTable.isHomogeneous "Play" = true :=
  c6_info_zero_iff_homogeneous scenarioTable "Play" (by decide) (by decide)

/-!  ### Counting lemmas for mutual information (C3)  -/

lemma count_fst_zip {c r : List String} (hlen : c.length = r.length) (v : String) :
    c.count v = (c.zip r).countP (fun p => p.1 == v) := by
  conv_lhs => rw [← List.map_fst_zip c r (le_of_eq hlen)]
  rw [List.count_eq_countP, List.countP_map]
  rfl

lemma count_snd_zip {c r : List String} (hlen : c.length = r.length) (w : String) :
    r.count w = (c.zip r).countP (fun p => p.2 == w) := by
  conv_lhs => rw [← List.map_snd_zip c r (le_of_eq hlen.symm)]
  rw [List.count_eq_countP, List.countP_map]
  rfl

lemma count_selSnd (c r : List String) (v w : String) :
    (selSnd c r v).count w = (c.zip r).count (v, w) := by
  unfold selSnd
  rw [List.count_eq_countP, List.countP_map, List.countP_filter,
    List.count_eq_countP]
  apply List.countP_congr
  rintro ⟨a, b⟩ -
  simp [Prod.ext_iff, and_comm]

lemma length_selSnd {c r : List String} (hlen : c.length = r.length) (v : String) :
    (selSnd c r v).length = c.count v := by
  unfold selSnd
  rw [List.length_map, ← List.countP_eq_length_filter, ← count_fst_zip hlen]

lemma sum_count_of_superset {α : Type _} [DecidableEq α] (xs : List α) (S : Finset α)
    (h : xs.toFinset ⊆ S) : (S.sum (fun a => xs.count a)) = xs.length := by
  rw [← List.sum_toFinset_count_eq_length xs]
  exact (Finset.sum_subset h (fun x _ hnx =>
    List.count_eq_zero_of_not_mem (fun hx => hnx (List.mem_toFinset.mpr hx)))).symm

lemma marginal_fst {c r : List String} (hlen : c.length = r.length) (w : String) :
    (c.toFinset.sum (fun v => (c.zip r).count (v, w))) = r.count w := by
  set l := c.zip r with hl
  set lw := l.filter (fun p => p.2 == w) with hlw
  have h1 : ∀ v, l.count (v, w) = lw.count (v, w) := by
    intro v
    rw [hlw, List.count_filter]
    simp
  have hsndw : ∀ x ∈ lw, x.2 = w := by
    intro x hx
    have := List.of_mem_filter hx
    simpa using this
  have h2 : ∀ v, lw.count (v, w) = (lw.map Prod.fst).count v := by
    intro v
    rw [List.count_eq_countP, List.count_eq_countP, List.countP_map]
    apply List.countP_congr
    rintro ⟨a, b⟩ hab
    have hb : b = w := hsndw (a, b) hab
    subst hb
    simp [Prod.ext_iff]
  have hsub : (lw.map Prod.fst).toFinset ⊆ c.toFinset := by
    intro x hx
    rw [List.mem_toFinset] at hx ⊢
    obtain ⟨p, hp, rfl⟩ := List.mem_map.mp hx
    have hpl : p ∈ l := List.mem_of_mem_filter hp
    have := List.of_mem_zip hpl
    exact this.1
  calc c.toFinset.sum (fun v => l.count (v, w))
      = c.toFinset.sum (fun v => (lw.map Prod.fst).count v) := by
        apply Finset.sum_congr rfl
        intro v _
        rw [h1 v, h2 v]
    _ = (lw.map Prod.fst).length := sum_count_of_superset _ _ hsub
    _ = lw.length := List.length_map _ _
    _ = l.countP (fun p => p.2 == w) := by
        rw [hlw, ← List.countP_eq_length_filter]
    _ = r.count w := (count_snd_zip hlen w).symm

lemma marginal_snd {c r : List String} (hlen : c.length = r.length) (v : String) :
    (r.toFinset.sum (fun w => (c.zip r).count (v, w))) = c.count v := by
  set l := c.zip r with hl
  set lv := l.filter (fun p => p.1 == v) with hlv
  have h1 : ∀ w, l.count (v, w) = lv.count (v, w) := by
    intro w
    rw [hlv, List.count_filter]
    simp
  have hfstv : ∀ x ∈ lv, x.1 = v := by
    intro x hx
    have := List.of_mem_filter hx
    simpa using this
  have h2 : ∀ w, lv.count (v, w) = (lv.map Prod.snd).count w := by
    intro w
    rw [List.count_eq_countP, List.count_eq_countP, List.countP_map]
    apply List.countP_congr
    rintro ⟨a, b⟩ hab
    have ha : a = v := hfstv (a, b) hab
    subst ha
    simp [Prod.ext_iff]
  have hsub : (lv.map Prod.snd).toFinset ⊆ r.toFinset := by
    intro x hx
    rw [List.mem_toFinset] at hx ⊢
    obtain ⟨p, hp, rfl⟩ := List.mem_map.mp hx
    have hpl : p ∈ l := List.mem_of_mem_filter hp
    have := List.of_mem_zip hpl
    exact this.2
  calc r.toFinset.sum (fun w => l.count (v, w))
      = r.toFinset.sum (fun w => (lv.map Prod.snd).count w) := by
        apply Finset.sum_congr rfl
        intro w _
        rw [h1 w, h2 w]
    _ = (lv.map Prod.snd).length := sum_count_of_superset _ _ hsub
    _ = lv.length := List.length_map _ _
    _ = l.countP (fun p => p.1 == v) := by
        rw [hlv, ← List.countP_eq_length_filter]
    _ = c.count v := (count_fst_zip hlen v).symm

/-!  ### Gibbs' inequality  -/

lemma gibbs_sum_nonneg {ι : Type _} (s : Finset ι) (p q : ι → ℝ)
    (hp : ∀ i ∈ s, 0 ≤ p i) (hq : ∀ i ∈ s, 0 < q i)
    (hpq : s.sum q ≤ s.sum p) :
    0 ≤ s.sum (fun i => p i * (Real.logb 2 (p i) - Real.logb 2 (q i))) := by
  have key : ∀ i ∈ s, p i * (Real.log (q i) - Real.log (p i)) ≤ q i - p i := by
    intro i hi
    rcases eq_or_lt_of_le (hp i hi) with h0 | h0
    · rw [← h0]
      simp only [mul_comm, mul_zero, zero_mul, sub_zero]
      exact le_of_lt (hq i hi)
    · have hqp : 0 < q i / p i := div_pos (hq i hi) h0
      have hle := Real.log_le_sub_one_of_pos hqp
      have hlog : Real.log (q i) - Real.log (p i) = Real.log (q i / p i) :=
        (Real.log_div (ne_of_gt (hq i hi)) (ne_of_gt h0)).symm
      rw [hlog]
      calc p i * Real.log (q i / p i) ≤ p i * (q i / p i - 1) :=
            mul_le_mul_of_nonneg_left hle (le_of_lt h0)
        _ = q i - p i := by
            field_simp
  have hsum : s.sum (fun i => p i * (Real.log (q i) - Real.log (p i))) ≤ 0 := by
    calc s.sum (fun i => p i * (Real.log (q i) - Real.log (p i)))
        ≤ s.sum (fun i => q i - p i) := Finset.sum_le_sum key
      _ = s.sum q - s.sum p := Finset.sum_sub_distrib
      _ ≤ 0 := by linarith
  have hflip : 0 ≤ s.sum (fun i => p i * (Real.log (p i) - Real.log (q i))) := by
    have heq : s.sum (fun i => p i * (Real.log (p i) - Real.log (q i))) =
        -(s.sum (fun i => p i * (Real.log (q i) - Real.log (p i)))) := by
      rw [← Finset.sum_neg_distrib]
      apply Finset.sum_congr rfl
      intro i _
      ring
    rw [heq]
    linarith
  have hexp : s.sum (fun i => p i * (Real.logb 2 (p i) - Real.logb 2 (q i))) =
      (s.sum (fun i => p i * (Real.log (p i) - Real.log (q i)))) / Real.log 2 := by
    rw [Finset.sum_div]
    apply Finset.sum_congr rfl
    intro i _
    rw [Real.logb, Real.logb]
    ring
  rw [hexp]
  exact div_nonneg hflip (le_of_lt (Real.log_pos one_lt_two))

/-!  ### Entropy expansions over joint counts (C3)  -/

lemma weighted_entropy_selSnd (c r : List String) (hlen : c.length = r.length)
    (hnne : (c.length : ℝ) ≠ 0) {v : String} (hv : v ∈ c) :
    ((c.count v : ℝ) / (c.length : ℝ)) * entropyL (selSnd c r v) =
      -(r.toFinset.sum (fun w => (((c.zip r).count (v, w) : ℝ) / (c.length : ℝ)) *
          Real.logb 2 (((c.zip r).count (v, w) : ℝ) / (c.count v : ℝ)))) := by
  have hvpos : 0 < c.count v := List.count_pos_iff.mpr hv
  have hvne : ((c.count v : ℝ)) ≠ 0 := by
    have : (0:ℝ) < (c.count v : ℝ) := by exact_mod_cast hvpos
    exact ne_of_gt this
  unfold entropyL
  have hfun : (fun w => (((selSnd c r v).count w : ℝ) / (((selSnd c r v).length : ℕ) : ℝ)) *
      Real.logb 2 (((selSnd c r v).count w : ℝ) / (((selSnd c r v).length : ℕ) : ℝ)))
      = (fun w => (((c.zip r).count (v, w) : ℝ) / ((c.count v : ℕ) : ℝ)) *
          Real.logb 2 (((c.zip r).count (v, w) : ℝ) / ((c.count v : ℕ) : ℝ))) := by
    funext w
    rw [count_selSnd, length_selSnd hlen]
  rw [hfun]
  have hBv : (selSnd c r v).toFinset ⊆ r.toFinset := by
    intro w hw
    rw [List.mem_toFinset] at hw ⊢
    unfold selSnd at hw
    obtain ⟨p, hp, rfl⟩ := List.mem_map.mp hw
    exact (List.of_mem_zip (List.mem_of_mem_filter hp)).2
  rw [← List.sum_toFinset _ (List.nodup_dedup (selSnd c r v)),
    toFinset_dedup_list (selSnd c r v)]
  rw [Finset.sum_subset hBv (fun w _ hw => by
    have h0 : (c.zip r).count (v, w) = 0 := by
      rw [← count_selSnd]
      exact List.count_eq_zero_of_not_mem (fun h => hw (List.mem_toFinset.mpr h))
    rw [h0]
    simp)]
  rw [mul_neg, neg_inj, Finset.mul_sum]
  apply Finset.sum_congr rfl
  intro w _
  field_simp
  ring

lemma entropyL_expand_pairs (c r : List String) (hlen : c.length = r.length) :
    entropyL r = -(c.toFinset.sum (fun v => r.toFinset.sum (fun w =>
      (((c.zip r).count (v, w) : ℝ) / (c.length : ℝ)) *
        Real.logb 2 ((r.count w : ℝ) / (c.length : ℝ))))) := by
  have hrl : ((r.length : ℕ) : ℝ) = ((c.length : ℕ) : ℝ) := by exact_mod_cast hlen.symm
  have hMsum : ∀ w, c.toFinset.sum (fun v => (((c.zip r).count (v, w) : ℕ) : ℝ)) =
      ((r.count w : ℕ) : ℝ) := by
    intro w
    rw [← Nat.cast_sum]
    exact_mod_cast marginal_fst hlen w
  unfold entropyL
  rw [← List.sum_toFinset _ (List.nodup_dedup r), toFinset_dedup_list r]
  congr 1
  rw [Finset.sum_comm]
  apply Finset.sum_congr rfl
  intro w _
  rw [← Finset.sum_mul, ← Finset.sum_div, hMsum w, hrl]

lemma conditional_entropy_le (c r : List String) (hlen : c.length = r.length)
    (hne : c ≠ []) :
    (c.dedup.map (fun v => ((c.count v : ℝ) / (c.length : ℝ)) *
        entropyL (selSnd c r v))).sum ≤ entropyL r := by
  have hnpos : 0 < c.length := List.length_pos.mpr hne
  have hnR : (0:ℝ) < (c.length : ℝ) := by exact_mod_cast hnpos
  have hnne : (c.length : ℝ) ≠ 0 := ne_of_gt hnR
  have hNat1 : c.toFinset.sum (fun v => ((c.count v : ℕ) : ℝ)) = (c.length : ℝ) := by
    rw [← Nat.cast_sum]
    exact_mod_cast List.sum_toFinset_count_eq_length c
  have hNat2 : r.toFinset.sum (fun w => ((r.count w : ℕ) : ℝ)) = (c.length : ℝ) := by
    rw [← Nat.cast_sum]
    rw [hlen]
    exact_mod_cast List.sum_toFinset_count_eq_length r
  have hLHS : (c.dedup.map (fun v => ((c.count v : ℝ) / (c.length : ℝ)) *
      entropyL (selSnd c r v))).sum =
      -(c.toFinset.sum (fun v => r.toFinset.sum (fun w =>
        (((c.zip r).count (v, w) : ℝ) / (c.length : ℝ)) *
          Real.logb 2 (((c.zip r).count (v, w) : ℝ) / (c.count v : ℝ))))) := by
    rw [← List.sum_toFinset _ (List.nodup_dedup c), toFinset_dedup_list c,
      ← Finset.sum_neg_distrib]
    apply Finset.sum_congr rfl
    intro v hv
    rw [weighted_entropy_selSnd c r hlen hnne (List.mem_toFinset.mp hv)]
  rw [hLHS, entropyL_expand_pairs c r hlen, neg_le_neg_iff]
  have hp : ∀ x ∈ c.toFinset ×ˢ r.toFinset,
      (0:ℝ) ≤ ((c.zip r).count x : ℝ) / (c.length : ℝ) :=
    fun x _ => div_nonneg (Nat.cast_nonneg _) (le_of_lt hnR)
  have hq : ∀ x ∈ c.toFinset ×ˢ r.toFinset,
      (0:ℝ) < ((c.count x.1 : ℝ) / (c.length : ℝ)) *
        ((r.count x.2 : ℝ) / (c.length : ℝ)) := by
    intro x hx
    obtain ⟨hx1, hx2⟩ := Finset.mem_product.mp hx
    have h1 : (0:ℝ) < (c.count x.1 : ℝ) := by
      exact_mod_cast List.count_pos_iff.mpr (List.mem_toFinset.mp hx1)
    have h2 : (0:ℝ) < (r.count x.2 : ℝ) := by
      exact_mod_cast List.count_pos_iff.mpr (List.mem_toFinset.mp hx2)
    exact mul_pos (div_pos h1 hnR) (div_pos h2 hnR)
  have hsp : (c.toFinset ×ˢ r.toFinset).sum
      (fun x => ((c.zip r).count x : ℝ) / (c.length : ℝ)) = 1 := by
    rw [Finset.sum_product]
    have hrow : ∀ v ∈ c.toFinset, r.toFinset.sum (fun w =>
        (((c.zip r).count (v, w) : ℕ) : ℝ) / (c.length : ℝ)) =
        ((c.count v : ℕ) : ℝ) / (c.length : ℝ) := by
      intro v _
      rw [← Finset.sum_div]
      congr 1
      rw [← Nat.cast_sum]
      exact_mod_cast marginal_snd hlen v
    rw [Finset.sum_congr rfl hrow, ← Finset.sum_div, hNat1, div_self hnne]
  have hsq : (c.toFinset ×ˢ r.toFinset).sum
      (fun x => ((c.count x.1 : ℝ) / (c.length : ℝ)) *
        ((r.count x.2 : ℝ) / (c.length : ℝ))) = 1 := by
    rw [Finset.sum_product]
    have hB1 : r.toFinset.sum (fun w => ((r.count w : ℕ) : ℝ) / (c.length : ℝ)) = 1 := by
      rw [← Finset.sum_div, hNat2, div_self hnne]
    have hrow : ∀ v ∈ c.toFinset, r.toFinset.sum (fun w =>
        ((c.count v : ℝ) / (c.length : ℝ)) * ((r.count w : ℝ) / (c.length : ℝ))) =
        ((c.count v : ℕ) : ℝ) / (c.length : ℝ) := by
      intro v _
      rw [← Finset.mul_sum, hB1, mul_one]
    rw [Finset.sum_congr rfl hrow, ← Finset.sum_div, hNat1, div_self hnne]
  have hgibbs := gibbs_sum_nonneg (c.toFinset ×ˢ r.toFinset)
    (fun x => ((c.zip r).count x : ℝ) / (c.length : ℝ))
    (fun x => ((c.count x.1 : ℝ) / (c.length : ℝ)) *
      ((r.count x.2 : ℝ) / (c.length : ℝ)))
    hp hq (by rw [hsp, hsq])
  have hsplit : (c.toFinset ×ˢ r.toFinset).sum (fun x =>
      (((c.zip r).count x : ℝ) / (c.length : ℝ)) *
        (Real.logb 2 (((c.zip r).count x : ℝ) / (c.length : ℝ)) -
          Real.logb 2 (((c.count x.1 : ℝ) / (c.length : ℝ)) *
            ((r.count x.2 : ℝ) / (c.length : ℝ))))) =
      c.toFinset.sum (fun v => r.toFinset.sum (fun w =>
        (((c.zip r).count (v, w) : ℝ) / (c.length : ℝ)) *
          Real.logb 2 (((c.zip r).count (v, w) : ℝ) / (c.count v : ℝ)))) -
      c.toFinset.sum (fun v => r.toFinset.sum (fun w =>
        (((c.zip r).count (v, w) : ℝ) / (c.length : ℝ)) *
          Real.logb 2 ((r.count w : ℝ) / (c.length : ℝ)))) := by
    rw [Finset.sum_product, ← Finset.sum_sub_distrib]
    apply Finset.sum_congr rfl
    intro v hv
    rw [← Finset.sum_sub_distrib]
    apply Finset.sum_congr rfl
    intro w hw
    rcases Nat.eq_zero_or_pos ((c.zip r).count (v, w)) with h0 | h0
    · rw [h0]
      push_cast
      simp
    · have hN : (0:ℝ) < ((c.zip r).count (v, w) : ℝ) := by exact_mod_cast h0
      have hNvpos : (0:ℝ) < (c.count v : ℝ) := by
        exact_mod_cast List.count_pos_iff.mpr (List.mem_toFinset.mp hv)
      have hMwpos : (0:ℝ) < (r.count w : ℝ) := by
        exact_mod_cast List.count_pos_iff.mpr (List.mem_toFinset.mp hw)
      rw [Real.logb_div (ne_of_gt hN) hnne,
        Real.logb_mul (ne_of_gt (div_pos hNvpos hnR)) (ne_of_gt (div_pos hMwpos hnR)),
        Real.logb_div (ne_of_gt hNvpos) hnne,
        Real.logb_div (ne_of_gt hMwpos) hnne,
        Real.logb_div (ne_of_gt hN) (ne_of_gt hNvpos)]
      ring
  linarith [hgibbs, hsplit]

lemma infox_eq_selSnd (t : C45) (x res : String) :
    t.infox x res = ((t.col x).dedup.map (fun v =>
      (((t.col x).count v : ℝ) / (((t.col x).length : ℕ) : ℝ)) *
        entropyL (selSnd (t.col x) (t.col res) v))).sum := by
  unfold C45.infox C45.partitionOnFeature
  rw [List.map_map]
  congr 1
  apply List.map_congr_left
  intro v hv
  show ((t.buildPartition x v).flen x / t.flen x) * (t.buildPartition x v).info res = _
  have hflen : (t.buildPartition x v).flen x = (((t.col x).count v : ℕ) : ℝ) := by
    unfold C45.flen
    rw [col_buildPartition, get_indexes_eq_idxsOf]
    rw [length_filterIdx_idxsOf v rfl]
  have hinfo : (t.buildPartition x v).info res =
      entropyL (selSnd (t.col x) (t.col res) v) := by
    rw [info_eq_entropyL, col_buildPartition, get_indexes_eq_idxsOf, filterIdx_idxsOf]
    rfl
  rw [hflen, hinfo]
  rfl

/-- C3: for every valid table (size at least one) and every attribute
`col` of the table distinct from the target column, the information
gain `gain(col, target) = info(target) - infox(col, target)` is
nonnegative. -/
theorem c3_gain_nonneg (t : C45) (x res : String) (hv : t.Valid)
    (hx : x ∈ t.keys) (hres : res ∈ t.keys) (_hxres : x ≠ res) :
    0 ≤ t.gain x res := by
  unfold C45.gain
  rw [sub_nonneg, info_eq_entropyL, infox_eq_selSnd]
  apply conditional_entropy_le
  · rw [length_col_eq_size t hv.2.2.2 hx, length_col_eq_size t hv.2.2.2 hres]
  · intro h
    have hL := length_col_eq_size t hv.2.2.2 hx
    rw [h] at hL
    simp only [List.length_nil] at hL
    have := hv.2.2.1
    omega

/-- Witness for C3: splitting the Scenario 1 table on `Weather` with
target `Play` has nonnegative gain. -/
theorem c3_gain_nonneg_witness : 0 ≤ scenarioTable.gain "Weather" "Play" :=
  c3_gain_nonneg scenarioTable "Weather" "Play" (by decide) (by decide) (by decide)
    (by decide)
